import Mathlib

/-! Four-digit seven-segment display driver: embedding and verification.

Shallow embedding of `src/main.cpp` (an mbed program driving a 4-digit
common-anode 7-segment display through a 74HC595 shift register).

* Output pins are modelled by the trace of writes performed on them
  (`Event.write pin level`); `ThisThread::sleep_for` is an `Event.sleep`.
* `uint8_t` values are naturals below 256; the bitwise steps on promoted
  `int` values work on 32-bit two's-complement bit patterns.
* `int` values are integers; `/` and `%` are the truncating `Int.tdiv` and
  `Int.tmod` of C++; increments wrap to 32 bits (`wrapInt32`).
* A table read outside the table's bounds yields `none`.
* `float` values are rationals; every `float` operation rounds its exact
  result to binary32, to nearest with ties to even (`roundFloat`).
* One iteration of the main loop is a function of the sampled inputs and the
  clock (`mainIteration`).
-/

namespace SevenSeg

/-! ## Pins and traces -/

/-- The three `DigitalOut` lines wired to the 74HC595. -/
inductive Pin where
  | latchPin
  | clockPin
  | dataPin
  deriving DecidableEq, Repr

/-- One observable action of the program: an assignment to an output pin or a
blocking sleep of the control loop (milliseconds). -/
inductive Event where
  | write (pin : Pin) (level : Nat)
  | sleep (ms : Nat)
  deriving DecidableEq, Repr

/-! ## Machine arithmetic -/

/-- Bit pattern of `~x` for a 32-bit `int` whose bit pattern is `x`. -/
def not32 (x : Nat) : Nat := 2 ^ 32 - 1 - x % 2 ^ 32

/-- Conversion `static_cast<uint8_t>` (and the implicit narrowing on
assignment to a `uint8_t`): the low 8 bits. -/
def toUint8 (x : Nat) : Nat := x % 256

/-- Value of a 32-bit `int` after an arithmetic result `x`: two's-complement
wrap into `[-2^31, 2^31)`. -/
def wrapInt32 (x : Int) : Int := (x + 2 ^ 31) % 2 ^ 32 - 2 ^ 31

/-! ## Lookup tables -/

/-- Table `digitPattern[10]`: segment patterns for a common-anode display. -/
def digitPattern : List Nat :=
  [ toUint8 (not32 0x3F),  -- 0
    toUint8 (not32 0x06),  -- 1
    toUint8 (not32 0x5B),  -- 2
    toUint8 (not32 0x4F),  -- 3
    toUint8 (not32 0x66),  -- 4
    toUint8 (not32 0x6D),  -- 5
    toUint8 (not32 0x7D),  -- 6
    toUint8 (not32 0x07),  -- 7
    toUint8 (not32 0x7F),  -- 8
    toUint8 (not32 0x6F) ] -- 9

/-- Table `digitPos[4]`: one-hot digit-select bytes, leftmost digit first. -/
def digitPos : List Nat := [0x01, 0x02, 0x04, 0x08]

/-- Read of `table[i]` with an `int` index: `none` when out of bounds. -/
def readTable (table : List Nat) (i : Int) : Option Nat :=
  if 0 ≤ i then table[i.toNat]? else none

/-! ## Shift-register driver -/

/-- Body of the loop of `shiftOutMSBFirst` for loop counter `i`. -/
def shiftOutBit (value i : Nat) : List Event :=
  [ Event.write Pin.dataPin (if value &&& (1 <<< i) ≠ 0 then 1 else 0),
    Event.write Pin.clockPin 1,
    Event.write Pin.clockPin 0 ]

/-- Loop `for (int i = n - 1; i >= 0; i--)` of `shiftOutMSBFirst`: the
argument is the number of iterations left, the counter is one less. -/
def shiftOutLoop (value : Nat) : Nat → List Event
  | 0 => []
  | i + 1 => shiftOutBit value i ++ shiftOutLoop value i

/-- Function `shiftOutMSBFirst(value)`: the counter starts at 7. -/
def shiftOutMSBFirst (value : Nat) : List Event :=
  shiftOutLoop value 8

/-- Function `writeToShiftRegister(segments, digit)`. -/
def writeToShiftRegister (segments digit : Nat) : List Event :=
  [Event.write Pin.latchPin 0]
    ++ shiftOutMSBFirst segments
    ++ shiftOutMSBFirst digit
    ++ [Event.write Pin.latchPin 1]

/-! ## Display multiplexer -/

/-- The array `int digits[4]` computed at the start of `displayNumber`. -/
def digitsOf (number : Int) : List Int :=
  [ (number.tdiv 1000).tmod 10,
    (number.tdiv 100).tmod 10,
    (number.tdiv 10).tmod 10,
    number.tmod 10 ]

/-- Statement `segments &= ~0x80;` on a `uint8_t`: the operand is promoted to
`int`, and-ed with the bit pattern of `~0x80`, and narrowed back to 8 bits. -/
def clearDecimalPointBit (segments : Nat) : Nat :=
  toUint8 (segments &&& not32 0x80)

/-- Body of the loop of `displayNumber` for loop counter `i`: the events it
performs, or `none` when a table is read out of bounds. -/
def displayDigit (digits : List Int) (showDecimalPoint : Bool) (decimalPosition : Int)
    (i : Nat) : Option (List Event) := do
  let d ← digits[i]?
  let pattern ← readTable digitPattern d
  let segments :=
    if showDecimalPoint && decide ((i : Int) = decimalPosition) then
      clearDecimalPointBit pattern
    else pattern
  let select ← readTable digitPos (i : Int)
  pure (writeToShiftRegister segments select ++ [Event.sleep 2])

/-- Loop `for (int i = ...; i < 4; i++)` of `displayNumber`, from counter `i`
with the given number of iterations left. -/
def displayLoop (digits : List Int) (showDecimalPoint : Bool) (decimalPosition : Int) :
    Nat → Nat → Option (List Event)
  | _, 0 => some []
  | i, left + 1 => do
    let now ← displayDigit digits showDecimalPoint decimalPosition i
    let later ← displayLoop digits showDecimalPoint decimalPosition (i + 1) left
    pure (now ++ later)

/-- Function `displayNumber(number, showDecimalPoint, decimalPosition)`. -/
def displayNumber (number : Int) (showDecimalPoint : Bool) (decimalPosition : Int) :
    Option (List Event) :=
  displayLoop (digitsOf number) showDecimalPoint decimalPosition 0 4

/-! ## Timekeeping -/

/-- The two global counters `seconds` and `minutes`. -/
structure ClockState where
  seconds : Int
  minutes : Int
  deriving DecidableEq, Repr

/-- Both counters are initialised to 0. -/
def initialClock : ClockState := { seconds := 0, minutes := 0 }

/-- Function `updateTime()`, the ticker callback. -/
def updateTime (c : ClockState) : ClockState :=
  let seconds := wrapInt32 (c.seconds + 1)
  if seconds ≥ 60 then
    let minutes := wrapInt32 (c.minutes + 1)
    if minutes ≥ 100 then { seconds := 0, minutes := 0 }
    else { seconds := 0, minutes := minutes }
  else { seconds := seconds, minutes := c.minutes }

/-- Statement `seconds = 0;` of the reset branch of `main`. -/
def resetSeconds (c : ClockState) : ClockState := { c with seconds := 0 }

/-- Statement `minutes = 0;` of the reset branch of `main`. -/
def resetMinutes (c : ClockState) : ClockState := { c with minutes := 0 }

/-- The reset branch of `main`: `seconds = 0; minutes = 0;`. -/
def resetClock (c : ClockState) : ClockState := resetMinutes (resetSeconds c)

/-- The given number of consecutive `updateTime` calls. -/
def ticks : Nat → ClockState → ClockState
  | 0, c => c
  | n + 1, c => ticks n (updateTime c)

/-- What can happen to the clock: a tick of the ticker or a reset. -/
inductive ClockAction where
  | tick
  | reset
  deriving DecidableEq, Repr

/-- Effect of one action on the clock. -/
def applyAction (c : ClockState) : ClockAction → ClockState
  | ClockAction.tick => updateTime c
  | ClockAction.reset => resetClock c

/-- Effect of a sequence of actions, first action first. -/
def runActions (actions : List ClockAction) (c : ClockState) : ClockState :=
  actions.foldl applyAction c

/-! ## Single-precision arithmetic -/

/-- Nearest integer to a rational, a tie going to the even neighbour. -/
def roundHalfEven (x : ℚ) : ℤ :=
  let f := ⌊x⌋
  if x - f < 1 / 2 then f
  else if 1 / 2 < x - f then f + 1
  else if f % 2 = 0 then f else f + 1

/-- Exponent of the spacing of `float` values around `x`: a 24-bit
significand, and the smallest exponent -126 (below it the spacing stays
`2^-149`). -/
def ulpExponent (x : ℚ) : ℤ := max (Int.log 2 |x|) (-126) - 23

/-- Result of a `float` operation whose exact value is `x` (IEEE-754 binary32,
round to nearest, ties to even); magnitudes are far below the overflow
threshold `2^128` everywhere in this program. -/
def roundFloat (x : ℚ) : ℚ :=
  roundHalfEven (x / 2 ^ ulpExponent x) * 2 ^ ulpExponent x

/-- Conversion `static_cast<int>` of a `float`: the fraction is discarded. -/
def truncToInt (x : ℚ) : Int := if 0 ≤ x then ⌊x⌋ else ⌈x⌉

/-! ## Main loop -/

/-- What one iteration of the main loop samples: the levels read from the
buttons `s1` and `s3` (`true` is high, the button not pressed) and the value
of `potentiometer.read_u16()`. -/
structure LoopInputs where
  s1 : Bool
  s3 : Bool
  sample : Nat
  deriving DecidableEq, Repr

/-- Expression `potentiometer.read_u16() / 65535.0f * 3.3f`; the sample and
`65535.0f` are exact as `float`, the literal `3.3f` is rounded. -/
def voltageOf (sample : Nat) : ℚ :=
  roundFloat (roundFloat ((sample : ℚ) / 65535) * roundFloat (33 / 10))

/-- Expression `static_cast<int>(voltage * 1000)`. -/
def voltageValueOf (sample : Nat) : Int :=
  truncToInt (roundFloat (voltageOf sample * 1000))

/-- Expression `minutes * 100 + seconds` of the time branch. -/
def timeValueOf (c : ClockState) : Int :=
  wrapInt32 (wrapInt32 (c.minutes * 100) + c.seconds)

/-- The reset branch `if (!s1) { seconds = 0; minutes = 0; sleep_for(200ms); }`:
the clock after it and the events it performs. -/
def resetBranch (inp : LoopInputs) (c : ClockState) : ClockState × List Event :=
  if !inp.s1 then (resetMinutes (resetSeconds c), [Event.sleep 200]) else (c, [])

/-- The display branch `if (!s3) { ... } else { ... }` of the main loop. -/
def displayBranch (inp : LoopInputs) (c : ClockState) : Option (List Event) :=
  if !inp.s3 then displayNumber (voltageValueOf inp.sample) true 0
  else displayNumber (timeValueOf c) true 1

/-- One iteration of `while (true)` in `main`, no tick arriving during it:
the clock after the iteration and the events performed (`none` when a table
is read out of bounds). -/
def mainIteration (inp : LoopInputs) (c : ClockState) : ClockState × Option (List Event) :=
  let afterReset := resetBranch inp c
  (afterReset.1, (displayBranch inp afterReset.1).map (fun shown => afterReset.2 ++ shown))

/-- Where one whole `updateTime` call falls relative to the two writes
`seconds = 0; minutes = 0;` of the reset. -/
inductive TickPosition where
  | beforeSeconds
  | betweenWrites
  | afterMinutes
  deriving DecidableEq, Repr

/-- The reset's two writes with one `updateTime` call at the given position. -/
def resetWithTick (c : ClockState) : TickPosition → ClockState
  | TickPosition.beforeSeconds => resetMinutes (resetSeconds (updateTime c))
  | TickPosition.betweenWrites => resetMinutes (updateTime (resetSeconds c))
  | TickPosition.afterMinutes => updateTime (resetMinutes (resetSeconds c))

/-! ## Specification-side vocabulary -/

/-- Bit `i` of a natural number, as 0 or 1. -/
def bitOf (x i : Nat) : Nat := x / 2 ^ i % 2

/-- Bits 7 down to 0 of a byte. -/
def bitsMSBFirst (x : Nat) : List Nat :=
  [7, 6, 5, 4, 3, 2, 1, 0].map (bitOf x)

/-- The three writes that clock one bit into the register. -/
def clockInBit (b : Nat) : List Event :=
  [Event.write Pin.dataPin b, Event.write Pin.clockPin 1, Event.write Pin.clockPin 0]

/-- Whether an event is a write to the latch line. -/
def isLatchWrite : Event → Bool
  | Event.write Pin.latchPin _ => true
  | _ => false

/-- The frame sent for a list of bits: latch low, the bits, latch high. -/
def frameOf (bits : List Nat) : List Event :=
  [Event.write Pin.latchPin 0] ++ bits.flatMap clockInBit ++ [Event.write Pin.latchPin 1]

/-- The segments of a 7-segment digit and its decimal point. -/
inductive Segment where
  | a | b | c | d | e | f | g | dp
  deriving DecidableEq, Repr

/-- Bit assigned to a segment: bit 0 = a, ..., bit 6 = g, bit 7 = decimal point. -/
def Segment.bit : Segment → Nat
  | Segment.a => 0
  | Segment.b => 1
  | Segment.c => 2
  | Segment.d => 3
  | Segment.e => 4
  | Segment.f => 5
  | Segment.g => 6
  | Segment.dp => 7

/-- Segments lit for each decimal digit on a 7-segment display. -/
def litSegments : Nat → List Segment
  | 0 => [Segment.a, Segment.b, Segment.c, Segment.d, Segment.e, Segment.f]
  | 1 => [Segment.b, Segment.c]
  | 2 => [Segment.a, Segment.b, Segment.d, Segment.e, Segment.g]
  | 3 => [Segment.a, Segment.b, Segment.c, Segment.d, Segment.g]
  | 4 => [Segment.b, Segment.c, Segment.f, Segment.g]
  | 5 => [Segment.a, Segment.c, Segment.d, Segment.f, Segment.g]
  | 6 => [Segment.a, Segment.c, Segment.d, Segment.e, Segment.f, Segment.g]
  | 7 => [Segment.a, Segment.b, Segment.c]
  | 8 => [Segment.a, Segment.b, Segment.c, Segment.d, Segment.e, Segment.f, Segment.g]
  | 9 => [Segment.a, Segment.b, Segment.c, Segment.d, Segment.f, Segment.g]
  | _ => []

/-- Canonical common-cathode pattern of a digit: a bit is set exactly for
the lit segments. -/
def cathodePattern (d : Nat) : Nat :=
  ((litSegments d).map (fun seg => 2 ^ seg.bit)).sum

/-- Decimal digit `i` of `v`, counted from the thousands digit (`i = 0`). -/
def decimalDigit (v i : Nat) : Nat := v / 10 ^ (3 - i) % 10

/-- Segment byte expected in transaction `i` of `displayNumber`: the table
entry of decimal digit `i`, with bit 7 cleared when the decimal point is
shown at index `i`. -/
def expectedSegments (v : Int) (showDecimalPoint : Bool) (decimalPosition : Int)
    (i : Nat) : Nat :=
  let pattern := digitPattern.getD (decimalDigit v.toNat i) 0
  if showDecimalPoint = true ∧ (i : Int) = decimalPosition then pattern % 128 else pattern

/-- The clock invariant: seconds in 0..59 and minutes in 0..99. -/
def ClockInv (c : ClockState) : Prop :=
  0 ≤ c.seconds ∧ c.seconds ≤ 59 ∧ 0 ≤ c.minutes ∧ c.minutes ≤ 99

instance (c : ClockState) : Decidable (ClockInv c) := by
  unfold ClockInv
  infer_instance

/-- Transition `advance()` as the specification words it, the two tests in
sequence: seconds += 1; if seconds == 60: seconds = 0, minutes += 1;
if minutes == 100: minutes = 0. -/
def specAdvance (c : ClockState) : ClockState :=
  let c1 : ClockState := { c with seconds := c.seconds + 1 }
  let c2 : ClockState :=
    if c1.seconds = 60 then { seconds := 0, minutes := c1.minutes + 1 } else c1
  if c2.minutes = 100 then { c2 with minutes := 0 } else c2

/-- Transition `advance()` of the specification with the minutes test read
as part of the seconds branch. -/
def specAdvanceNested (c : ClockState) : ClockState :=
  let c1 : ClockState := { c with seconds := c.seconds + 1 }
  if c1.seconds = 60 then
    let c2 : ClockState := { seconds := 0, minutes := c1.minutes + 1 }
    if c2.minutes = 100 then { c2 with minutes := 0 } else c2
  else c1

/-- Segment byte sent for digit `d` with the decimal point on or off: the
table entry, after the decimal-point step when the point is on. -/
def segmentByte (d : Nat) (point : Bool) : Nat :=
  let pattern := digitPattern.getD d 0
  if point then clearDecimalPointBit pattern else pattern

/-- State of a model 16-bit serial-in/parallel-out register: the shift
register, the level on its data input and the latched output word. -/
structure ShiftReg where
  register : Nat
  data : Nat
  output : Nat
  deriving DecidableEq, Repr

/-- Reaction of the model register to one event, the clock line being low
before each `clock := 1`: a data write sets the data level, a `clock := 1`
write shifts the data level in at the low end (16 bits kept), a `latch := 1`
write copies the register to the output. -/
def ShiftReg.step (r : ShiftReg) : Event → ShiftReg
  | Event.write Pin.dataPin level => { r with data := level }
  | Event.write Pin.clockPin level =>
    if level = 1 then { r with register := (r.register * 2 + r.data) % 2 ^ 16 } else r
  | Event.write Pin.latchPin level =>
    if level = 1 then { r with output := r.register } else r
  | Event.sleep _ => r

/-- The model register after a trace of events. -/
def ShiftReg.run (r : ShiftReg) (trace : List Event) : ShiftReg :=
  trace.foldl ShiftReg.step r

/-! ## Shift-register driver: lemmas -/

theorem dataLevel_eq_bitOf (value i : Nat) :
    (if value &&& (1 <<< i) ≠ 0 then 1 else 0) = bitOf value i := by
  unfold bitOf
  rw [Nat.one_shiftLeft, Nat.and_two_pow]
  have hdiv := @Nat.testBit_to_div_mod i value
  cases h : value.testBit i <;> simp_all

theorem shiftOutBit_eq (value i : Nat) :
    shiftOutBit value i = clockInBit (bitOf value i) := by
  unfold shiftOutBit clockInBit
  rw [dataLevel_eq_bitOf]

theorem shiftOutMSBFirst_eq (value : Nat) :
    shiftOutMSBFirst value = (bitsMSBFirst value).flatMap clockInBit := by
  simp only [shiftOutMSBFirst, shiftOutLoop, shiftOutBit_eq, bitsMSBFirst, List.map,
    List.flatMap_cons, List.flatMap_nil]

theorem writeToShiftRegister_eq (s m : Nat) :
    writeToShiftRegister s m =
      [Event.write Pin.latchPin 0]
        ++ (bitsMSBFirst s ++ bitsMSBFirst m).flatMap clockInBit
        ++ [Event.write Pin.latchPin 1] := by
  simp only [writeToShiftRegister, shiftOutMSBFirst_eq, List.flatMap_append, List.append_assoc]

theorem length_flatMap_clockInBit (bits : List Nat) :
    (bits.flatMap clockInBit).length = 3 * bits.length := by
  induction bits with
  | nil => rfl
  | cons b bs ih =>
    rw [List.flatMap_cons, List.length_append, ih, List.length_cons]
    simp only [clockInBit, List.length_cons, List.length_nil]
    omega

theorem count_rise_flatMap_clockInBit (bits : List Nat) :
    (bits.flatMap clockInBit).count (Event.write Pin.clockPin 1) = bits.length := by
  induction bits with
  | nil => rfl
  | cons b bs ih =>
    rw [List.flatMap_cons, List.count_append, ih, List.length_cons]
    simp [clockInBit, List.count_cons]
    omega

theorem count_fall_flatMap_clockInBit (bits : List Nat) :
    (bits.flatMap clockInBit).count (Event.write Pin.clockPin 0) = bits.length := by
  induction bits with
  | nil => rfl
  | cons b bs ih =>
    rw [List.flatMap_cons, List.count_append, ih, List.length_cons]
    simp [clockInBit, List.count_cons]
    omega

theorem getElem?_flatMap_clockInBit (bits : List Nat) (k : Nat) (b : Nat)
    (hb : bits[k]? = some b) :
    (bits.flatMap clockInBit)[3 * k]? = some (Event.write Pin.dataPin b)
      ∧ (bits.flatMap clockInBit)[3 * k + 1]? = some (Event.write Pin.clockPin 1)
      ∧ (bits.flatMap clockInBit)[3 * k + 2]? = some (Event.write Pin.clockPin 0) := by
  induction bits generalizing k with
  | nil => simp at hb
  | cons c cs ih =>
    cases k with
    | zero =>
      simp only [List.getElem?_cons_zero, Option.some.injEq] at hb
      subst hb
      simp [clockInBit]
    | succ j =>
      rw [List.getElem?_cons_succ] at hb
      have h := ih j hb
      have e0 : 3 * (j + 1) = (3 * j) + 3 := by omega
      have e1 : 3 * j + 3 + 1 = (3 * j + 1) + 3 := by omega
      have e2 : 3 * j + 3 + 2 = (3 * j + 2) + 3 := by omega
      rw [List.flatMap_cons, e0, e1, e2]
      simpa [clockInBit] using h

theorem not_latch_of_mem_flatMap_clockInBit (bits : List Nat) (e : Event)
    (he : e ∈ bits.flatMap clockInBit) : isLatchWrite e = false := by
  rw [List.mem_flatMap] at he
  obtain ⟨b, _, hb⟩ := he
  simp only [clockInBit, List.mem_cons, List.mem_singleton, List.not_mem_nil, or_false] at hb
  rcases hb with h | h | h <;> subst h <;> rfl

theorem length_frameOf (bits : List Nat) : (frameOf bits).length = 3 * bits.length + 2 := by
  simp only [frameOf, List.length_append, length_flatMap_clockInBit, List.length_cons,
    List.length_nil]
  omega

theorem getElem?_frameOf_succ (bits : List Nat) (k : Nat) (hk : k < 3 * bits.length) :
    (frameOf bits)[k + 1]? = (bits.flatMap clockInBit)[k]? := by
  unfold frameOf
  rw [List.append_assoc, List.singleton_append, List.getElem?_cons_succ,
    List.getElem?_append_left (by rw [length_flatMap_clockInBit]; exact hk)]

theorem latch_frameOf (bits : List Nat) (k : Nat) (e : Event)
    (hk : (frameOf bits)[k]? = some e) :
    isLatchWrite e = true ↔ k = 0 ∨ k = 3 * bits.length + 1 := by
  obtain ⟨hlt, hget⟩ := List.getElem?_eq_some.1 hk
  rw [length_frameOf] at hlt
  rcases Nat.eq_zero_or_pos k with h0 | hpos
  · subst h0
    simp [frameOf] at hk
    subst hk
    simp [isLatchWrite]
  · obtain ⟨j, rfl⟩ : ∃ j, k = j + 1 := ⟨k - 1, by omega⟩
    by_cases hj : j < 3 * bits.length
    · rw [getElem?_frameOf_succ bits j hj] at hk
      have hmem : e ∈ bits.flatMap clockInBit := by
        obtain ⟨hlt2, heq⟩ := List.getElem?_eq_some.1 hk
        rw [← heq]
        exact List.getElem_mem hlt2
      rw [not_latch_of_mem_flatMap_clockInBit bits e hmem]
      constructor
      · intro h; cases h
      · intro h; omega
    · have hj2 : j = 3 * bits.length := by omega
      subst hj2
      unfold frameOf at hk
      rw [List.getElem?_append_right (by
        simp only [List.length_append, length_flatMap_clockInBit, List.length_cons,
          List.length_nil]
        omega)] at hk
      simp only [List.length_append, length_flatMap_clockInBit, List.length_cons,
        List.length_nil] at hk
      have e0 : 3 * bits.length + 1 - (0 + 1 + 3 * bits.length) = 0 := by omega
      rw [e0] at hk
      simp at hk
      subst hk
      simp [isLatchWrite]

theorem getElem?_bits16 (s m k : Nat) (hk : k < 16) :
    (bitsMSBFirst s ++ bitsMSBFirst m)[k]?
      = some (if k < 8 then bitOf s (7 - k) else bitOf m (15 - k)) := by
  interval_cases k <;> rfl

/-- C1: for bytes `s`, `m`, the pin writes of `writeToShiftRegister s m` are
latch:=0, then for each of the 16 bits (bits 7..0 of `s`, then bits 7..0 of
`m`) the writes data:=bit, clock:=1, clock:=0, then latch:=1.  Hence there
are exactly 16 clock rises (and 16 clock falls), every clock rise is directly
preceded by the data write of its bit, and the only latch writes are the
first write (latch:=0) and the last write (latch:=1). -/
theorem writeToShiftRegister_trace (s m : Nat) (hs : s < 256) (hm : m < 256) :
    writeToShiftRegister s m =
        [Event.write Pin.latchPin 0]
          ++ (bitsMSBFirst s ++ bitsMSBFirst m).flatMap
              (fun b => [Event.write Pin.dataPin b, Event.write Pin.clockPin 1,
                         Event.write Pin.clockPin 0])
          ++ [Event.write Pin.latchPin 1]
      ∧ (bitsMSBFirst s ++ bitsMSBFirst m).length = 16
      ∧ (writeToShiftRegister s m).count (Event.write Pin.clockPin 1) = 16
      ∧ (writeToShiftRegister s m).count (Event.write Pin.clockPin 0) = 16
      ∧ (∀ k, k < 16 →
          (writeToShiftRegister s m)[3 * k + 1]?
              = some (Event.write Pin.dataPin
                  (if k < 8 then bitOf s (7 - k) else bitOf m (15 - k)))
            ∧ (writeToShiftRegister s m)[3 * k + 2]? = some (Event.write Pin.clockPin 1)
            ∧ (writeToShiftRegister s m)[3 * k + 3]? = some (Event.write Pin.clockPin 0))
      ∧ (writeToShiftRegister s m).length = 50
      ∧ (writeToShiftRegister s m).head? = some (Event.write Pin.latchPin 0)
      ∧ (writeToShiftRegister s m).getLast? = some (Event.write Pin.latchPin 1)
      ∧ (∀ k e, (writeToShiftRegister s m)[k]? = some e →
          (isLatchWrite e = true ↔ k = 0 ∨ k = 49)) := by
  have _hs := hs
  have _hm := hm
  have hlen : (bitsMSBFirst s ++ bitsMSBFirst m).length = 16 := rfl
  have hframe : writeToShiftRegister s m = frameOf (bitsMSBFirst s ++ bitsMSBFirst m) :=
    writeToShiftRegister_eq s m
  refine ⟨writeToShiftRegister_eq s m, hlen, ?_, ?_, ?_, ?_, ?_, ?_, ?_⟩
  · rw [hframe, frameOf, List.count_append, List.count_append,
      count_rise_flatMap_clockInBit, hlen]
    rfl
  · rw [hframe, frameOf, List.count_append, List.count_append,
      count_fall_flatMap_clockInBit, hlen]
    rfl
  · intro k hk
    have hb := getElem?_bits16 s m k hk
    have h := getElem?_flatMap_clockInBit _ k _ hb
    rw [hframe]
    have e3 : 3 * k + 3 = (3 * k + 2) + 1 := rfl
    rw [e3, getElem?_frameOf_succ _ (3 * k) (by rw [hlen]; omega),
      getElem?_frameOf_succ _ (3 * k + 1) (by rw [hlen]; omega),
      getElem?_frameOf_succ _ (3 * k + 2) (by rw [hlen]; omega)]
    exact h
  · rw [hframe, length_frameOf, hlen]
  · rw [hframe]; rfl
  · rw [hframe, frameOf, List.getLast?_concat]
  · intro k e hk
    rw [hframe] at hk
    have h := latch_frameOf _ k e hk
    rw [hlen] at h
    exact h

theorem writeToShiftRegister_trace_witness :
    writeToShiftRegister 0xC0 0x01 =
      [Event.write Pin.latchPin 0]
        ++ (bitsMSBFirst 0xC0 ++ bitsMSBFirst 0x01).flatMap
            (fun b => [Event.write Pin.dataPin b, Event.write Pin.clockPin 1,
                       Event.write Pin.clockPin 0])
        ++ [Event.write Pin.latchPin 1] :=
  (writeToShiftRegister_trace 0xC0 0x01 (by decide) (by decide)).1

/-! ## Segment table -/

theorem wrapInt32_of_range (x : Int) (hlo : -2147483648 ≤ x) (hhi : x ≤ 2147483647) :
    wrapInt32 x = x := by
  unfold wrapInt32
  omega

theorem clearDecimalPointBit_eq_mod (x : Nat) (hx : x < 256) :
    clearDecimalPointBit x = x % 128 := by
  have h : ∀ y : Fin 256, clearDecimalPointBit y.val = y.val % 128 := by
    set_option maxRecDepth 100000 in decide
  exact h ⟨x, hx⟩

theorem bitOf_mod_128 (x i : Nat) (hi : i < 7) : bitOf (x % 128) i = bitOf x i := by
  unfold bitOf
  interval_cases i <;> omega

theorem bitOf_seven_mod_128 (x : Nat) : bitOf (x % 128) 7 = 0 := by
  unfold bitOf
  omega

theorem bitOf_high_of_byte (x i : Nat) (hx : x < 256) (hi : 7 < i) : bitOf x i = 0 := by
  unfold bitOf
  have h8 : x / 2 ^ 8 = 0 := by norm_num; omega
  have hpow : 2 ^ i = 2 ^ 8 * 2 ^ (i - 8) := by
    rw [← pow_add]; congr 1; omega
  rw [hpow, ← Nat.div_div_eq_div_mul, h8]
  simp

theorem digitPattern_entry (d : Nat) (hd : d < 10) :
    digitPattern[d]? = some (digitPattern.getD d 0)
      ∧ 128 ≤ digitPattern.getD d 0 ∧ digitPattern.getD d 0 < 256 := by
  interval_cases d <;> decide

/-- C3: for every digit `d` in 0..9, `digitPattern[d]` is the 8-bit
complement of the canonical common-cathode pattern of `d` (bit 0 = segment a,
..., bit 6 = segment g, bit 7 = decimal point, with the lit segments of each
digit as listed in `litSegments`, i.e. the table 0x3F, 0x06, 0x5B, 0x4F, 0x66,
0x6D, 0x7D, 0x07, 0x7F, 0x6F): a bit of `digitPattern[d]` is set exactly when
its segment (or the decimal point) is not lit for `d`. -/
theorem digitPattern_complement (d : Nat) (hd : d < 10) :
    ∃ p, digitPattern[d]? = some p
      ∧ p < 256
      ∧ cathodePattern d = [0x3F, 0x06, 0x5B, 0x4F, 0x66, 0x6D, 0x7D, 0x07, 0x7F, 0x6F].getD d 0
      ∧ p = 255 - cathodePattern d
      ∧ p ^^^ 0xFF = cathodePattern d
      ∧ (∀ i, i < 8 → bitOf p i = 1 - bitOf (cathodePattern d) i)
      ∧ (∀ seg : Segment, bitOf p seg.bit = 1 ↔ seg ∉ litSegments d) := by
  interval_cases d
  all_goals
    refine ⟨_, rfl, by decide, by decide, by decide, by decide, ?_, ?_⟩
    · intro i hi
      interval_cases i <;> decide
    · intro seg
      cases seg <;> decide

theorem digitPattern_complement_witness :
    ∃ p, digitPattern[2]? = some p
      ∧ p < 256
      ∧ cathodePattern 2 = [0x3F, 0x06, 0x5B, 0x4F, 0x66, 0x6D, 0x7D, 0x07, 0x7F, 0x6F].getD 2 0
      ∧ p = 255 - cathodePattern 2
      ∧ p ^^^ 0xFF = cathodePattern 2
      ∧ (∀ i, i < 8 → bitOf p i = 1 - bitOf (cathodePattern 2) i)
      ∧ (∀ seg : Segment, bitOf p seg.bit = 1 ↔ seg ∉ litSegments 2) :=
  digitPattern_complement 2 (by decide)

/-- C4: for every digit `d` in 0..9, the decimal-point step
(`segments &= ~0x80`, narrowed to 8 bits) applied to `digitPattern[d]` changes
bit 7 only: bits 0..6 are equal, bit 7 of the result is 0 and bit 7 of
`digitPattern[d]` is 1.  For every byte `x` the step leaves bits 0..6
untouched, yields bit 7 = 0 and stays a byte. -/
theorem clearDecimalPointBit_only_bit7 (d x : Nat) (hd : d < 10) (hx : x < 256) :
    (∃ p, digitPattern[d]? = some p
      ∧ (∀ i, i < 7 → bitOf (clearDecimalPointBit p) i = bitOf p i)
      ∧ bitOf (clearDecimalPointBit p) 7 = 0
      ∧ bitOf p 7 = 1
      ∧ (∀ i, 7 < i → bitOf (clearDecimalPointBit p) i = bitOf p i)
      ∧ clearDecimalPointBit p = p - 128)
    ∧ (∀ i, i < 7 → bitOf (clearDecimalPointBit x) i = bitOf x i)
    ∧ bitOf (clearDecimalPointBit x) 7 = 0
    ∧ (∀ i, 7 < i → bitOf (clearDecimalPointBit x) i = bitOf x i)
    ∧ clearDecimalPointBit x < 256 := by
  have hx128 := clearDecimalPointBit_eq_mod x hx
  obtain ⟨hget, hge, hlt⟩ := digitPattern_entry d hd
  have hp128 := clearDecimalPointBit_eq_mod _ hlt
  refine ⟨⟨_, hget, ?_, ?_, ?_, ?_, ?_⟩, ?_, ?_, ?_, ?_⟩
  · intro i hi
    rw [hp128, bitOf_mod_128 _ i hi]
  · rw [hp128, bitOf_seven_mod_128]
  · unfold bitOf
    omega
  · intro i hi
    rw [hp128, bitOf_high_of_byte _ i hlt hi, bitOf_high_of_byte _ i (by omega) hi]
  · rw [hp128]
    omega
  · intro i hi
    rw [hx128, bitOf_mod_128 _ i hi]
  · rw [hx128, bitOf_seven_mod_128]
  · intro i hi
    rw [hx128, bitOf_high_of_byte _ i hx hi, bitOf_high_of_byte _ i (by omega) hi]
  · rw [hx128]
    omega

theorem clearDecimalPointBit_only_bit7_witness :
    (∃ p, digitPattern[5]? = some p
      ∧ (∀ i, i < 7 → bitOf (clearDecimalPointBit p) i = bitOf p i)
      ∧ bitOf (clearDecimalPointBit p) 7 = 0
      ∧ bitOf p 7 = 1
      ∧ (∀ i, 7 < i → bitOf (clearDecimalPointBit p) i = bitOf p i)
      ∧ clearDecimalPointBit p = p - 128)
    ∧ (∀ i, i < 7 → bitOf (clearDecimalPointBit 0x7F) i = bitOf 0x7F i)
    ∧ bitOf (clearDecimalPointBit 0x7F) 7 = 0
    ∧ (∀ i, 7 < i → bitOf (clearDecimalPointBit 0x7F) i = bitOf 0x7F i)
    ∧ clearDecimalPointBit 0x7F < 256 :=
  clearDecimalPointBit_only_bit7 5 0x7F (by decide) (by decide)

/-! ## Digit decomposition -/

theorem digitsOf_nonneg (v : Int) (h0 : 0 ≤ v) :
    digitsOf v = [v / 1000 % 10, v / 100 % 10, v / 10 % 10, v % 10] := by
  unfold digitsOf
  rw [Int.tdiv_eq_ediv h0 (by decide), Int.tdiv_eq_ediv h0 (by decide),
    Int.tdiv_eq_ediv h0 (by decide), Int.tmod_eq_emod h0 (by decide),
    Int.tmod_eq_emod (by omega) (by decide), Int.tmod_eq_emod (by omega) (by decide),
    Int.tmod_eq_emod (by omega) (by decide)]

/-- C5: for every value `v` in 0..9999, the four digits computed by
`displayNumber`, `d0 = (v / 1000) % 10`, `d1 = (v / 100) % 10`,
`d2 = (v / 10) % 10`, `d3 = v % 10`, each lie in 0..9 and satisfy
`d0*1000 + d1*100 + d2*10 + d3 = v`. -/
theorem digitsOf_roundtrip (v : Int) (h0 : 0 ≤ v) (h1 : v ≤ 9999) :
    ∃ d0 d1 d2 d3 : Int, digitsOf v = [d0, d1, d2, d3]
      ∧ d0 = (v / 1000) % 10 ∧ d1 = (v / 100) % 10 ∧ d2 = (v / 10) % 10 ∧ d3 = v % 10
      ∧ (0 ≤ d0 ∧ d0 ≤ 9) ∧ (0 ≤ d1 ∧ d1 ≤ 9) ∧ (0 ≤ d2 ∧ d2 ≤ 9) ∧ (0 ≤ d3 ∧ d3 ≤ 9)
      ∧ d0 * 1000 + d1 * 100 + d2 * 10 + d3 = v := by
  refine ⟨_, _, _, _, digitsOf_nonneg v h0, rfl, rfl, rfl, rfl, ?_⟩
  omega

theorem digitsOf_roundtrip_witness :
    ∃ d0 d1 d2 d3 : Int, digitsOf 2750 = [d0, d1, d2, d3]
      ∧ d0 = (2750 / 1000) % 10 ∧ d1 = (2750 / 100) % 10 ∧ d2 = (2750 / 10) % 10
      ∧ d3 = 2750 % 10
      ∧ (0 ≤ d0 ∧ d0 ≤ 9) ∧ (0 ≤ d1 ∧ d1 ≤ 9) ∧ (0 ≤ d2 ∧ d2 ≤ 9) ∧ (0 ≤ d3 ∧ d3 ≤ 9)
      ∧ d0 * 1000 + d1 * 100 + d2 * 10 + d3 = 2750 :=
  digitsOf_roundtrip 2750 (by decide) (by decide)

/-! ## Display multiplexer: lemmas -/

theorem readTable_digitPattern (n : Nat) (hn : n < 10) :
    readTable digitPattern (n : Int) = some (digitPattern.getD n 0) := by
  interval_cases n <;> rfl

theorem readTable_digitPos (i : Nat) (hi : i < 4) :
    readTable digitPos (i : Int) = some (digitPos.getD i 0) := by
  interval_cases i <;> rfl

theorem digitsOf_eq_decimalDigit (v : Int) (h0 : 0 ≤ v) (h1 : v ≤ 9999) :
    digitsOf v =
      [ ((decimalDigit v.toNat 0 : Nat) : Int), ((decimalDigit v.toNat 1 : Nat) : Int),
        ((decimalDigit v.toNat 2 : Nat) : Int), ((decimalDigit v.toNat 3 : Nat) : Int) ] := by
  have _h1 := h1
  rw [digitsOf_nonneg v h0]
  obtain ⟨n, rfl⟩ := Int.eq_ofNat_of_zero_le h0
  simp only [decimalDigit, Int.toNat_ofNat]
  norm_num

theorem decimalDigit_lt (v i : Nat) : decimalDigit v i < 10 := by
  unfold decimalDigit
  omega

theorem displayDigit_eq (digits : List Int) (showDecimalPoint : Bool) (decimalPosition : Int)
    (v : Int) (i : Nat) (hi : i < 4)
    (hd : digits[i]? = some ((decimalDigit v.toNat i : Nat) : Int)) :
    displayDigit digits showDecimalPoint decimalPosition i =
      some (writeToShiftRegister (expectedSegments v showDecimalPoint decimalPosition i)
        (digitPos.getD i 0) ++ [Event.sleep 2]) := by
  have hlt := decimalDigit_lt v.toNat i
  obtain ⟨_, _, hbyte⟩ := digitPattern_entry _ hlt
  unfold displayDigit expectedSegments
  rw [hd]
  simp only [Option.bind_eq_bind, Option.some_bind, readTable_digitPattern _ hlt,
    readTable_digitPos i hi, clearDecimalPointBit_eq_mod _ hbyte, Option.pure_def,
    Bool.and_eq_true, decide_eq_true_eq]


/-- C2: for every value `v` in 0..9999, every flag and every decimal
position, `displayNumber` performs exactly four `writeToShiftRegister`
transactions (each followed by the 2 ms dwell), for `i = 0, 1, 2, 3` in that
order; transaction `i` has digit-select byte `digitPos[i]` (0x01, 0x02, 0x04,
0x08) and segment byte `digitPattern[d_i]`, `d_i` the `i`-th decimal digit of
`v` from the thousands digit, with bit 7 cleared when the flag is set and
`i` is the decimal position and unchanged (bit 7 set) otherwise.  For
`displayNumber(2750, true, 0)` the digits are 2, 7, 5, 0 and the segment bytes
are 0x24 (0xA4 with the point lit), 0xF8, 0x92, 0xC0. -/
theorem displayNumber_transactions (v : Int) (showDecimalPoint : Bool)
    (decimalPosition : Int) (h0 : 0 ≤ v) (h1 : v ≤ 9999) :
    displayNumber v showDecimalPoint decimalPosition =
        some (writeToShiftRegister
                (expectedSegments v showDecimalPoint decimalPosition 0) 0x01
              ++ [Event.sleep 2]
              ++ (writeToShiftRegister
                (expectedSegments v showDecimalPoint decimalPosition 1) 0x02
              ++ [Event.sleep 2]
              ++ (writeToShiftRegister
                (expectedSegments v showDecimalPoint decimalPosition 2) 0x04
              ++ [Event.sleep 2]
              ++ (writeToShiftRegister
                (expectedSegments v showDecimalPoint decimalPosition 3) 0x08
              ++ [Event.sleep 2]))))
      ∧ digitPos = [0x01, 0x02, 0x04, 0x08]
      ∧ (∀ i, i < 4 →
          ∃ p, digitPattern[decimalDigit v.toNat i]? = some p
            ∧ bitOf p 7 = 1
            ∧ expectedSegments v showDecimalPoint decimalPosition i
                = (if showDecimalPoint = true ∧ (i : Int) = decimalPosition
                    then p - 128 else p))
      ∧ [decimalDigit 2750 0, decimalDigit 2750 1, decimalDigit 2750 2, decimalDigit 2750 3]
          = [2, 7, 5, 0]
      ∧ displayNumber 2750 true 0 =
          some (writeToShiftRegister 0x24 0x01 ++ [Event.sleep 2]
            ++ (writeToShiftRegister 0xF8 0x02 ++ [Event.sleep 2]
            ++ (writeToShiftRegister 0x92 0x04 ++ [Event.sleep 2]
            ++ (writeToShiftRegister 0xC0 0x08 ++ [Event.sleep 2])))) := by
  have hdig := digitsOf_eq_decimalDigit v h0 h1
  refine ⟨?_, rfl, ?_, by decide, rfl⟩
  · unfold displayNumber
    simp only [displayLoop]
    rw [displayDigit_eq _ _ _ v 0 (by decide) (by rw [hdig]; rfl),
      displayDigit_eq _ _ _ v 1 (by decide) (by rw [hdig]; rfl),
      displayDigit_eq _ _ _ v 2 (by decide) (by rw [hdig]; rfl),
      displayDigit_eq _ _ _ v 3 (by decide) (by rw [hdig]; rfl)]
    simp [digitPos]
  · intro i _
    obtain ⟨hget, hge, hlt⟩ := digitPattern_entry _ (decimalDigit_lt v.toNat i)
    refine ⟨_, hget, ?_, ?_⟩
    · unfold bitOf
      omega
    · unfold expectedSegments
      have hmod : digitPattern.getD (decimalDigit v.toNat i) 0 % 128
          = digitPattern.getD (decimalDigit v.toNat i) 0 - 128 := by omega
      simp only [hmod]

theorem displayNumber_transactions_witness :
    displayNumber 530 true 1 =
      some (writeToShiftRegister (expectedSegments 530 true 1 0) 0x01 ++ [Event.sleep 2]
        ++ (writeToShiftRegister (expectedSegments 530 true 1 1) 0x02 ++ [Event.sleep 2]
        ++ (writeToShiftRegister (expectedSegments 530 true 1 2) 0x04 ++ [Event.sleep 2]
        ++ (writeToShiftRegister (expectedSegments 530 true 1 3) 0x08
        ++ [Event.sleep 2])))) :=
  (displayNumber_transactions 530 true 1 (by decide) (by decide)).1

/-! ## Timekeeping: lemmas -/

theorem updateTime_of_inv (c : ClockState) (h : ClockInv c) :
    updateTime c
      = { seconds := (c.seconds + 1) % 60,
          minutes := (c.minutes + (c.seconds + 1) / 60) % 100 } := by
  obtain ⟨s, m⟩ := c
  obtain ⟨hs0, hs, hm0, hm⟩ := h
  simp only at hs0 hs hm0 hm
  unfold updateTime
  simp only [wrapInt32_of_range (s + 1) (by omega) (by omega),
    wrapInt32_of_range (m + 1) (by omega) (by omega)]
  by_cases h60 : s + 1 ≥ 60
  · have hs59 : s = 59 := by omega
    subst hs59
    by_cases h100 : m + 1 ≥ 100
    · have hm99 : m = 99 := by omega
      subst hm99
      rfl
    · rw [if_pos h60, if_neg h100]
      norm_num
      omega
  · rw [if_neg h60]
    have e1 : (s + 1) % 60 = s + 1 := by omega
    have e2 : (m + (s + 1) / 60) % 100 = m := by omega
    rw [e1, e2]

theorem updateTime_preserves_inv (c : ClockState) (h : ClockInv c) :
    ClockInv (updateTime c) := by
  rw [updateTime_of_inv c h]
  unfold ClockInv
  simp only
  omega

theorem resetClock_inv (c : ClockState) : ClockInv (resetClock c) := by
  unfold ClockInv resetClock resetMinutes resetSeconds
  simp

theorem ticks_of_inv (n : Nat) (c : ClockState) (h : ClockInv c) :
    ticks n c
      = { seconds := (c.seconds + n) % 60,
          minutes := (c.minutes + (c.seconds + n) / 60) % 100 } := by
  induction n generalizing c with
  | zero =>
    obtain ⟨s, m⟩ := c
    obtain ⟨hs0, hs, hm0, hm⟩ := h
    simp only at hs0 hs hm0 hm
    simp only [ticks, ClockState.mk.injEq]
    constructor <;> push_cast <;> omega
  | succ k ih =>
    have hinv := updateTime_preserves_inv c h
    rw [ticks, ih _ hinv, updateTime_of_inv c h]
    simp only [ClockState.mk.injEq]
    constructor <;> push_cast <;> omega

theorem ticks_initialClock (n : Nat) :
    ticks n initialClock = { seconds := ((n % 60 : Nat) : Int),
                             minutes := ((n / 60 % 100 : Nat) : Int) } := by
  rw [ticks_of_inv n initialClock (by decide)]
  simp only [initialClock, ClockState.mk.injEq]
  constructor <;> push_cast <;> omega

theorem runActions_inv (actions : List ClockAction) (c : ClockState) (h : ClockInv c) :
    ClockInv (runActions actions c) := by
  induction actions generalizing c with
  | nil => exact h
  | cons a rest ih =>
    unfold runActions
    rw [List.foldl_cons]
    apply ih
    cases a
    · exact updateTime_preserves_inv c h
    · exact resetClock_inv c

theorem specAdvance_of_inv (c : ClockState) (h : ClockInv c) :
    specAdvance c
      = { seconds := (c.seconds + 1) % 60,
          minutes := (c.minutes + (c.seconds + 1) / 60) % 100 } := by
  obtain ⟨s, m⟩ := c
  obtain ⟨hs0, hs, hm0, hm⟩ := h
  simp only at hs0 hs hm0 hm
  unfold specAdvance
  simp only
  by_cases h60 : s + 1 = 60
  · have hs59 : s = 59 := by omega
    subst hs59
    by_cases h100 : m + 1 = 100
    · have hm99 : m = 99 := by omega
      subst hm99
      rfl
    · simp only [if_pos h60, if_neg h100, ClockState.mk.injEq]
      constructor <;> omega
  · have hm100 : ¬ m = 100 := by omega
    simp only [if_neg h60, if_neg hm100, ClockState.mk.injEq]
    constructor <;> omega

theorem specAdvanceNested_of_inv (c : ClockState) (h : ClockInv c) :
    specAdvanceNested c
      = { seconds := (c.seconds + 1) % 60,
          minutes := (c.minutes + (c.seconds + 1) / 60) % 100 } := by
  obtain ⟨s, m⟩ := c
  obtain ⟨hs0, hs, hm0, hm⟩ := h
  simp only at hs0 hs hm0 hm
  unfold specAdvanceNested
  simp only
  by_cases h60 : s + 1 = 60
  · have hs59 : s = 59 := by omega
    subst hs59
    by_cases h100 : m + 1 = 100
    · have hm99 : m = 99 := by omega
      subst hm99
      rfl
    · simp only [if_pos h60, if_neg h100, ClockState.mk.injEq]
      constructor <;> omega
  · simp only [if_neg h60, ClockState.mk.injEq]
    constructor <;> omega

/-- C6: for every clock state with seconds in 0..59 and minutes in 0..99, one
`updateTime` call (tests `seconds >= 60` and, nested in that branch,
`minutes >= 100`) produces exactly the state of the specification's
`advance()` transition (seconds += 1; if seconds == 60 then seconds = 0 and
minutes += 1; if minutes == 100 then minutes = 0), whether the minutes test
of the specification is read in sequence or nested. -/
theorem updateTime_eq_specAdvance (c : ClockState)
    (hs0 : 0 ≤ c.seconds) (hs : c.seconds ≤ 59) (hm0 : 0 ≤ c.minutes) (hm : c.minutes ≤ 99) :
    updateTime c = specAdvance c ∧ updateTime c = specAdvanceNested c := by
  have h : ClockInv c := ⟨hs0, hs, hm0, hm⟩
  rw [updateTime_of_inv c h, specAdvance_of_inv c h, specAdvanceNested_of_inv c h]
  exact ⟨rfl, rfl⟩

theorem updateTime_eq_specAdvance_witness :
    updateTime { seconds := 59, minutes := 99 } = specAdvance { seconds := 59, minutes := 99 }
      ∧ updateTime { seconds := 59, minutes := 99 }
          = specAdvanceNested { seconds := 59, minutes := 99 } :=
  updateTime_eq_specAdvance { seconds := 59, minutes := 99 }
    (by decide) (by decide) (by decide) (by decide)

/-- C7: the predicate 0 ≤ seconds ≤ 59 and 0 ≤ minutes ≤ 99 is an invariant
of the clock: it holds in the initial state (0, 0), every `updateTime` call
preserves it, the reset path (and each of its two writes alone) establishes
or preserves it, and so it holds in every state reached from the initial
state by any sequence of ticks and resets. -/
theorem clockInv_reachable (actions : List ClockAction) (c : ClockState) :
    ClockInv initialClock
      ∧ (ClockInv c → ClockInv (updateTime c))
      ∧ ClockInv (resetClock c)
      ∧ (ClockInv c → ClockInv (resetSeconds c) ∧ ClockInv (resetMinutes c))
      ∧ ClockInv (runActions actions initialClock) := by
  refine ⟨by decide, updateTime_preserves_inv c, resetClock_inv c, ?_,
    runActions_inv actions initialClock (by decide)⟩
  intro h
  obtain ⟨hs0, hs, hm0, hm⟩ := h
  exact ⟨⟨le_refl _, (by decide : (0 : Int) ≤ 59), hm0, hm⟩,
    ⟨hs0, hs, le_refl _, (by decide : (0 : Int) ≤ 99)⟩⟩

theorem clockInv_reachable_witness :
    ClockInv (updateTime { seconds := 59, minutes := 99 })
      ∧ ClockInv (runActions [ClockAction.tick, ClockAction.reset, ClockAction.tick]
          initialClock) :=
  ⟨(clockInv_reachable [] { seconds := 59, minutes := 99 }).2.1 (by decide),
   (clockInv_reachable [ClockAction.tick, ClockAction.reset, ClockAction.tick]
      initialClock).2.2.2.2⟩

/-- C8: for every natural number `n`, `n` consecutive `updateTime` calls
from seconds = 0, minutes = 0 leave seconds = n mod 60 and
minutes = (n div 60) mod 100; after 6000 calls the minutes counter has
wrapped at 100 and the state is minutes = 0, seconds = 0. -/
theorem ticks_from_initial (n : Nat) :
    (ticks n initialClock).seconds = ((n % 60 : Nat) : Int)
      ∧ (ticks n initialClock).minutes = ((n / 60 % 100 : Nat) : Int)
      ∧ (ticks 5999 initialClock).minutes = 99
      ∧ (ticks 5999 initialClock).seconds = 59
      ∧ (ticks 6000 initialClock).minutes = 0
      ∧ (ticks 6000 initialClock).seconds = 0 := by
  rw [ticks_initialClock n, ticks_initialClock 5999, ticks_initialClock 6000]
  exact ⟨rfl, rfl, rfl, rfl, rfl, rfl⟩

/-- C9, as stated: 60 consecutive `updateTime` calls from the initial state do
not yield the (seconds, minutes) pair (1, 0). -/
theorem ticks_60_ne_one_zero :
    ticks 60 initialClock ≠ { seconds := 1, minutes := 0 } := by
  rw [ticks_initialClock 60]
  decide

/-- C9, amended: 60 consecutive `updateTime` calls from the initial state
(seconds, minutes) = (0, 0) yield (seconds, minutes) = (0, 1): the seconds
counter has wrapped to 0 and one minute is counted. -/
theorem ticks_60 :
    ticks 60 initialClock = { seconds := 0, minutes := 1 } := by
  rw [ticks_initialClock 60]
  rfl

/-- C10, as stated: 6000 consecutive `updateTime` calls from the initial
state do not yield the (seconds, minutes) pair (0, 1). -/
theorem ticks_6000_ne_zero_one :
    ticks 6000 initialClock ≠ { seconds := 0, minutes := 1 } := by
  rw [ticks_initialClock 6000]
  decide

/-- C10, amended: 6000 consecutive `updateTime` calls from the initial state
(seconds, minutes) = (0, 0) yield (seconds, minutes) = (0, 0): the minutes
counter has wrapped at 100. -/
theorem ticks_6000 :
    ticks 6000 initialClock = { seconds := 0, minutes := 0 } := by
  rw [ticks_initialClock 6000]
  rfl

/-! ## Reset and tick -/

theorem resetClock_eq (c : ClockState) : resetClock c = { seconds := 0, minutes := 0 } := rfl

theorem updateTime_zero_seconds (m : Int) :
    updateTime { seconds := 0, minutes := m } = { seconds := 1, minutes := m } := by
  unfold updateTime
  have h1 : wrapInt32 ((0 : Int) + 1) = 1 := by decide
  simp only [h1]
  rw [if_neg (by decide)]

/-- C11: for every clock state (for example seconds = 45, minutes = 12),
the reset (seconds = 0; minutes = 0) followed by exactly one `updateTime`
call yields seconds = 1 and minutes = 0. -/
theorem reset_then_tick (c : ClockState) :
    updateTime (resetClock c) = { seconds := 1, minutes := 0 }
      ∧ (updateTime (resetClock c)).seconds = 1
      ∧ (updateTime (resetClock c)).minutes = 0
      ∧ updateTime (resetClock { seconds := 45, minutes := 12 })
          = { seconds := 1, minutes := 0 } := by
  rw [resetClock_eq c, resetClock_eq, updateTime_zero_seconds 0]
  exact ⟨rfl, rfl, rfl, rfl⟩

/-- C19: at statement granularity the unprotected reset leaves no torn
clock: for every clock state, one whole `updateTime` call before
`seconds = 0`, between `seconds = 0` and `minutes = 0`, or after
`minutes = 0` ends in tick-then-reset, (seconds, minutes) = (0, 0), or in
reset-then-tick, (1, 0); the position between the two writes gives (1, 0). -/
theorem resetWithTick_not_torn (c : ClockState) (p : TickPosition) :
    (resetWithTick c p = resetClock (updateTime c)
        ∨ resetWithTick c p = updateTime (resetClock c))
      ∧ resetClock (updateTime c) = { seconds := 0, minutes := 0 }
      ∧ updateTime (resetClock c) = { seconds := 1, minutes := 0 }
      ∧ resetWithTick c TickPosition.beforeSeconds = { seconds := 0, minutes := 0 }
      ∧ resetWithTick c TickPosition.betweenWrites = { seconds := 1, minutes := 0 }
      ∧ resetWithTick c TickPosition.afterMinutes = { seconds := 1, minutes := 0 } := by
  have hbetween : resetWithTick c TickPosition.betweenWrites
      = { seconds := 1, minutes := 0 } := by
    show resetMinutes (updateTime { seconds := 0, minutes := c.minutes }) = _
    rw [updateTime_zero_seconds]
    rfl
  have hafter : updateTime (resetClock c) = { seconds := 1, minutes := 0 } := by
    rw [resetClock_eq c, updateTime_zero_seconds 0]
  refine ⟨?_, rfl, hafter, rfl, hbetween, hafter⟩
  cases p
  · exact Or.inl rfl
  · exact Or.inr (hbetween.trans hafter.symm)
  · exact Or.inr rfl

/-! ## Segment bytes and the receiving register -/

/-- C18: the segment byte sent for a digit determines what is shown: the map
from (digit `d` in 0..9, decimal point on/off) to the byte (`digitPattern[d]`
with bit 7 cleared when the point is on, `digitPattern[d]` otherwise) is
injective; the ten table entries are pairwise distinct in bits 0..6 and all
have bit 7 set.  The byte is the one the loop body of `displayNumber` sends. -/
theorem segmentByte_injective (d e : Nat) (p q : Bool) (hd : d < 10) (he : e < 10) :
    (segmentByte d p = segmentByte e q → d = e ∧ p = q)
      ∧ (digitPattern.getD d 0 % 128 = digitPattern.getD e 0 % 128 → d = e)
      ∧ digitPattern[d]? = some (digitPattern.getD d 0)
      ∧ bitOf (digitPattern.getD d 0) 7 = 1
      ∧ segmentByte d true = digitPattern.getD d 0 - 128
      ∧ segmentByte d false = digitPattern.getD d 0
      ∧ displayDigit [(d : Int)] p 0 0
          = some (writeToShiftRegister (segmentByte d (p && true)) 0x01 ++ [Event.sleep 2]) := by
  refine ⟨?_, ?_, ?_, ?_, ?_, ?_, ?_⟩
  · interval_cases d <;> interval_cases e <;> cases p <;> cases q <;> decide
  · interval_cases d <;> interval_cases e <;> decide
  · interval_cases d <;> rfl
  · interval_cases d <;> decide
  · interval_cases d <;> decide
  · rfl
  · interval_cases d <;> cases p <;> rfl

theorem segmentByte_injective_witness :
    (segmentByte 3 true = segmentByte 8 false → 3 = 8 ∧ true = false)
      ∧ (digitPattern.getD 3 0 % 128 = digitPattern.getD 8 0 % 128 → 3 = 8) :=
  ⟨(segmentByte_injective 3 8 true false (by decide) (by decide)).1,
   (segmentByte_injective 3 8 true false (by decide) (by decide)).2.1⟩

theorem ShiftReg.run_append (r : ShiftReg) (t u : List Event) :
    ShiftReg.run r (t ++ u) = ShiftReg.run (ShiftReg.run r t) u := by
  unfold ShiftReg.run
  rw [List.foldl_append]

theorem ShiftReg.run_clockInBit (r : ShiftReg) (b : Nat) :
    ShiftReg.run r (clockInBit b)
      = { register := (r.register * 2 + b) % 2 ^ 16, data := b, output := r.output } := by
  simp [ShiftReg.run, clockInBit, ShiftReg.step]

theorem ShiftReg.run_byte (r : ShiftReg) (x : Nat) (hx : x < 256) :
    ShiftReg.run r ((bitsMSBFirst x).flatMap clockInBit)
      = { register := (r.register * 256 + x) % 2 ^ 16, data := bitOf x 0,
          output := r.output } := by
  simp only [bitsMSBFirst, List.map, List.flatMap_cons, List.flatMap_nil, List.append_nil,
    ShiftReg.run_append, ShiftReg.run_clockInBit, bitOf, ShiftReg.mk.injEq, and_true]
  norm_num
  omega

/-- C17: fed to the model 16-bit serial-in/parallel-out register (shift on
each clock:=1 write, output taken on latch:=1), the pin writes of
`writeToShiftRegister s m` commit the output word `s * 256 + m`, for every
pair of bytes and whatever the register, its output and the data line held
before. -/
theorem writeToShiftRegister_commits (s m : Nat) (r : ShiftReg) (hs : s < 256) (hm : m < 256) :
    (ShiftReg.run r (writeToShiftRegister s m)).output = s * 256 + m
      ∧ (ShiftReg.run r (writeToShiftRegister s m)).register = s * 256 + m := by
  rw [writeToShiftRegister_eq, List.flatMap_append, ShiftReg.run_append, ShiftReg.run_append,
    ShiftReg.run_append, ShiftReg.run_byte _ s hs, ShiftReg.run_byte _ m hm]
  simp only [ShiftReg.run, List.foldl_cons, List.foldl_nil, ShiftReg.step]
  norm_num
  omega

theorem writeToShiftRegister_commits_witness :
    (ShiftReg.run { register := 12345, data := 1, output := 7 }
        (writeToShiftRegister 0xA4 0x02)).output = 0xA4 * 256 + 0x02 :=
  (writeToShiftRegister_commits 0xA4 0x02 { register := 12345, data := 1, output := 7 }
    (by decide) (by decide)).1

/-! ## Values outside four digits and table bounds -/

theorem displayNumber_of_range (v : Int) (showDecimalPoint : Bool) (decimalPosition : Int)
    (h0 : 0 ≤ v) (h1 : v ≤ 9999) :
    displayNumber v showDecimalPoint decimalPosition =
      some (writeToShiftRegister
              (expectedSegments v showDecimalPoint decimalPosition 0) 0x01
            ++ [Event.sleep 2]
            ++ (writeToShiftRegister
              (expectedSegments v showDecimalPoint decimalPosition 1) 0x02
            ++ [Event.sleep 2]
            ++ (writeToShiftRegister
              (expectedSegments v showDecimalPoint decimalPosition 2) 0x04
            ++ [Event.sleep 2]
            ++ (writeToShiftRegister
              (expectedSegments v showDecimalPoint decimalPosition 3) 0x08
            ++ [Event.sleep 2])))) := by
  have hdig := digitsOf_eq_decimalDigit v h0 h1
  unfold displayNumber
  simp only [displayLoop]
  rw [displayDigit_eq _ _ _ v 0 (by decide) (by rw [hdig]; rfl),
    displayDigit_eq _ _ _ v 1 (by decide) (by rw [hdig]; rfl),
    displayDigit_eq _ _ _ v 2 (by decide) (by rw [hdig]; rfl),
    displayDigit_eq _ _ _ v 3 (by decide) (by rw [hdig]; rfl)]
  simp [digitPos]

theorem digitsOf_mod (v : Int) (h0 : 0 ≤ v) : digitsOf v = digitsOf (v % 10000) := by
  rw [digitsOf_nonneg v h0, digitsOf_nonneg (v % 10000) (by omega)]
  simp only [List.cons.injEq, and_true]
  refine ⟨?_, ?_, ?_, ?_⟩ <;> omega

theorem displayNumber_congr (v w : Int) (showDecimalPoint : Bool) (decimalPosition : Int)
    (h : digitsOf v = digitsOf w) :
    displayNumber v showDecimalPoint decimalPosition
      = displayNumber w showDecimalPoint decimalPosition := by
  unfold displayNumber
  rw [h]

theorem displayNumber_isSome (v : Int) (showDecimalPoint : Bool) (decimalPosition : Int)
    (h0 : 0 ≤ v) : (displayNumber v showDecimalPoint decimalPosition).isSome = true := by
  rw [displayNumber_congr v (v % 10000) _ _ (digitsOf_mod v h0),
    displayNumber_of_range (v % 10000) _ _ (by omega) (by omega)]
  rfl

theorem timeValueOf_of_inv (c : ClockState) (h : ClockInv c) :
    timeValueOf c = c.minutes * 100 + c.seconds := by
  obtain ⟨hs0, hs, hm0, hm⟩ := h
  unfold timeValueOf
  rw [wrapInt32_of_range (c.minutes * 100) (by omega) (by omega),
    wrapInt32_of_range (c.minutes * 100 + c.seconds) (by omega) (by omega)]

/-- C13, as stated: for the value -5, outside 0..9999, the digits computed by
`displayNumber` are 0, 0, 0, -5: not the decimal digits 9, 9, 9, 5 of
-5 mod 10000 = 9995, nor decimal digits at all, and the table read for the last
one is out of bounds, so the four transactions of 9995 are not issued. -/
theorem displayNumber_neg_five_not_truncated :
    digitsOf (-5) = [0, 0, 0, -5]
      ∧ (-5 : Int) % 10000 = 9995
      ∧ digitsOf ((-5 : Int) % 10000) = [9, 9, 9, 5]
      ∧ digitsOf (-5) ≠ digitsOf ((-5 : Int) % 10000)
      ∧ ¬ (∀ d ∈ digitsOf (-5), 0 ≤ d ∧ d ≤ 9)
      ∧ readTable digitPattern (-5) = none
      ∧ displayNumber (-5) true 0 = none
      ∧ displayNumber (-5) true 0 ≠ displayNumber ((-5 : Int) % 10000) true 0 := by
  refine ⟨by decide, by decide, by decide, by decide, by decide, by decide, by rfl, ?_⟩
  rw [displayNumber_of_range ((-5 : Int) % 10000) true 0 (by decide) (by decide)]
  have hnone : displayNumber (-5) true 0 = none := by rfl
  rw [hnone]
  exact fun h => Option.noConfusion h

/-- C13, amended: for every integer value above 9999 passed to
`displayNumber`, the value is truncated to its low 4 decimal digits: the four
digits computed are the four decimal digits of value mod 10000 (each in 0..9),
and the transactions issued are those for value mod 10000. -/
theorem displayNumber_truncates_above (v : Int) (showDecimalPoint : Bool)
    (decimalPosition : Int) (h : 9999 < v) :
    (0 ≤ v % 10000 ∧ v % 10000 ≤ 9999)
      ∧ v.tmod 10000 = v % 10000
      ∧ digitsOf v = digitsOf (v % 10000)
      ∧ digitsOf v =
          [ ((decimalDigit (v % 10000).toNat 0 : Nat) : Int),
            ((decimalDigit (v % 10000).toNat 1 : Nat) : Int),
            ((decimalDigit (v % 10000).toNat 2 : Nat) : Int),
            ((decimalDigit (v % 10000).toNat 3 : Nat) : Int) ]
      ∧ (∀ d ∈ digitsOf v, 0 ≤ d ∧ d ≤ 9)
      ∧ displayNumber v showDecimalPoint decimalPosition
          = displayNumber (v % 10000) showDecimalPoint decimalPosition
      ∧ (displayNumber v showDecimalPoint decimalPosition).isSome = true := by
  have h0 : 0 ≤ v := by omega
  have hmod := digitsOf_mod v h0
  have hdec := digitsOf_eq_decimalDigit (v % 10000) (by omega) (by omega)
  refine ⟨by omega, Int.tmod_eq_emod h0 (by decide), hmod, hmod.trans hdec, ?_,
    displayNumber_congr v _ _ _ hmod, displayNumber_isSome v _ _ h0⟩
  intro d hd
  rw [hmod, hdec] at hd
  simp only [List.mem_cons, List.mem_singleton, List.not_mem_nil, or_false] at hd
  have hlt := fun i => decimalDigit_lt (v % 10000).toNat i
  have hlt0 := hlt 0
  have hlt1 := hlt 1
  have hlt2 := hlt 2
  have hlt3 := hlt 3
  rcases hd with rfl | rfl | rfl | rfl <;> omega

theorem displayNumber_truncates_above_witness :
    displayNumber 12345 true 0 = displayNumber (12345 % 10000) true 0 :=
  (displayNumber_truncates_above 12345 true 0 (by decide)).2.2.2.2.2.1

/-- C14: for every non-negative number passed to `displayNumber`, every index
used to read `digitPattern` lies in 0..9 and every index used to read
`digitPos` (the loop counter) lies in 0..3, so no table read is out of bounds
and the call completes; in particular for every Time-mode value
`minutes * 100 + seconds` of a clock state with seconds in 0..59 and minutes
in 0..99. -/
theorem displayNumber_reads_in_bounds (v : Int) (showDecimalPoint : Bool)
    (decimalPosition : Int) (c : ClockState) (h0 : 0 ≤ v) (hc : ClockInv c) :
    (∀ d ∈ digitsOf v, 0 ≤ d ∧ d ≤ 9 ∧ (readTable digitPattern d).isSome = true)
      ∧ (digitsOf v).length = 4
      ∧ (∀ i : Nat, i < 4 → (readTable digitPos (i : Int)).isSome = true)
      ∧ (∀ i : Nat, (readTable digitPos (i : Int)).isSome = true → i ≤ 3)
      ∧ (∀ d : Int, (readTable digitPattern d).isSome = true → 0 ≤ d ∧ d ≤ 9)
      ∧ (displayNumber v showDecimalPoint decimalPosition).isSome = true
      ∧ 0 ≤ timeValueOf c
      ∧ timeValueOf c = c.minutes * 100 + c.seconds
      ∧ (displayNumber (timeValueOf c) true 1).isSome = true := by
  have htime := timeValueOf_of_inv c hc
  have htime0 : 0 ≤ timeValueOf c := by
    obtain ⟨hs0, hs, hm0, hm⟩ := hc
    rw [htime]
    omega
  refine ⟨?_, rfl, ?_, ?_, ?_, displayNumber_isSome v _ _ h0, htime0, htime,
    displayNumber_isSome _ _ _ htime0⟩
  · intro d hd
    rw [digitsOf_nonneg v h0] at hd
    simp only [List.mem_cons, List.mem_singleton, List.not_mem_nil, or_false] at hd
    have hd09 : 0 ≤ d ∧ d ≤ 9 := by
      rcases hd with rfl | rfl | rfl | rfl <;> omega
    obtain ⟨n, rfl⟩ := Int.eq_ofNat_of_zero_le hd09.1
    refine ⟨hd09.1, hd09.2, ?_⟩
    rw [readTable_digitPattern n (by omega)]
    rfl
  · intro i hi
    rw [readTable_digitPos i hi]
    rfl
  · intro i hi
    by_contra hgt
    have h4 : 4 ≤ i := by omega
    unfold readTable at hi
    rw [if_pos (by omega), Int.toNat_ofNat, List.getElem?_eq_none (by simpa [digitPos] using h4)]
      at hi
    cases hi
  · intro d hd
    unfold readTable at hd
    by_cases hneg : 0 ≤ d
    · refine ⟨hneg, ?_⟩
      by_contra hgt
      rw [if_pos hneg, List.getElem?_eq_none (by simp [digitPattern]; omega)] at hd
      cases hd
    · rw [if_neg hneg] at hd
      cases hd

theorem displayNumber_reads_in_bounds_witness :
    (displayNumber 123456 true 0).isSome = true
      ∧ (displayNumber (timeValueOf { seconds := 59, minutes := 99 }) true 1).isSome = true :=
  ⟨(displayNumber_reads_in_bounds 123456 true 0 { seconds := 59, minutes := 99 }
      (by decide) (by decide)).2.2.2.2.2.1,
   (displayNumber_reads_in_bounds 123456 true 0 { seconds := 59, minutes := 99 }
      (by decide) (by decide)).2.2.2.2.2.2.2.2⟩

/-! ## Main loop: time mode and reset -/

theorem expectedSegments_time (v : Int) :
    expectedSegments v true 1 0 = digitPattern.getD (decimalDigit v.toNat 0) 0
      ∧ expectedSegments v true 1 1 = digitPattern.getD (decimalDigit v.toNat 1) 0 % 128
      ∧ expectedSegments v true 1 2 = digitPattern.getD (decimalDigit v.toNat 2) 0
      ∧ expectedSegments v true 1 3 = digitPattern.getD (decimalDigit v.toNat 3) 0 := by
  unfold expectedSegments
  refine ⟨?_, ?_, ?_, ?_⟩
  · rw [if_neg (by decide)]
  · rw [if_pos (by decide)]
  · rw [if_neg (by decide)]
  · rw [if_neg (by decide)]

theorem decimalDigit_time (m s : Nat) (hs : s ≤ 59) (hm : m ≤ 99) :
    decimalDigit (m * 100 + s) 0 = m / 10 ∧ decimalDigit (m * 100 + s) 1 = m % 10
      ∧ decimalDigit (m * 100 + s) 2 = s / 10 ∧ decimalDigit (m * 100 + s) 3 = s % 10 := by
  unfold decimalDigit
  norm_num
  refine ⟨?_, ?_, ?_, ?_⟩ <;> omega

/-- C12: for every clock state with seconds `s` in 0..59 and minutes `m` in
0..99, the Time-mode branch of the main loop computes value = m*100 + s, in
0..9959, and calls `displayNumber(value, true, 1)`, which sends the digits
m / 10, m % 10, s / 10, s % 10 to positions 0..3, the decimal point lit
(bit 7 cleared) at index 1 and dark (bit 7 set) at indices 0, 2 and 3.  For
m = 5, s = 30 the value is 530 and the digits are 0, 5, 3, 0. -/
theorem timeMode_display (c : ClockState) (s1 : Bool) (sample : Nat)
    (hs0 : 0 ≤ c.seconds) (hs : c.seconds ≤ 59) (hm0 : 0 ≤ c.minutes) (hm : c.minutes ≤ 99) :
    timeValueOf c = c.minutes * 100 + c.seconds
      ∧ (0 ≤ timeValueOf c ∧ timeValueOf c ≤ 9959)
      ∧ digitsOf (timeValueOf c)
          = [c.minutes / 10, c.minutes % 10, c.seconds / 10, c.seconds % 10]
      ∧ displayBranch { s1 := s1, s3 := true, sample := sample } c
          = displayNumber (timeValueOf c) true 1
      ∧ displayBranch { s1 := s1, s3 := true, sample := sample } c
          = some (writeToShiftRegister
                    (digitPattern.getD (c.minutes / 10).toNat 0) 0x01
                  ++ [Event.sleep 2]
                  ++ (writeToShiftRegister
                    (digitPattern.getD (c.minutes % 10).toNat 0 - 128) 0x02
                  ++ [Event.sleep 2]
                  ++ (writeToShiftRegister
                    (digitPattern.getD (c.seconds / 10).toNat 0) 0x04
                  ++ [Event.sleep 2]
                  ++ (writeToShiftRegister
                    (digitPattern.getD (c.seconds % 10).toNat 0) 0x08
                  ++ [Event.sleep 2]))))
      ∧ (bitOf (digitPattern.getD (c.minutes / 10).toNat 0) 7 = 1
          ∧ bitOf (digitPattern.getD (c.minutes % 10).toNat 0) 7 = 1
          ∧ bitOf (digitPattern.getD (c.minutes % 10).toNat 0 - 128) 7 = 0
          ∧ bitOf (digitPattern.getD (c.seconds / 10).toNat 0) 7 = 1
          ∧ bitOf (digitPattern.getD (c.seconds % 10).toNat 0) 7 = 1)
      ∧ timeValueOf { seconds := 30, minutes := 5 } = 530
      ∧ digitsOf 530 = [0, 5, 3, 0] := by
  have hinv : ClockInv c := ⟨hs0, hs, hm0, hm⟩
  have htime := timeValueOf_of_inv c hinv
  obtain ⟨sec, min⟩ := c
  simp only at hs0 hs hm0 hm htime
  obtain ⟨S, rfl⟩ := Int.eq_ofNat_of_zero_le hs0
  obtain ⟨M, rfl⟩ := Int.eq_ofNat_of_zero_le hm0
  have hS : S ≤ 59 := by omega
  have hM : M ≤ 99 := by omega
  have hrange : 0 ≤ timeValueOf { seconds := (S : Int), minutes := (M : Int) }
      ∧ timeValueOf { seconds := (S : Int), minutes := (M : Int) } ≤ 9959 := by
    rw [htime]
    omega
  have htoNat : (timeValueOf { seconds := (S : Int), minutes := (M : Int) }).toNat
      = M * 100 + S := by
    rw [htime]
    omega
  obtain ⟨e0, e1, e2, e3⟩ := decimalDigit_time M S hS hM
  have q0 : ((M : Int) / 10).toNat = M / 10 := by omega
  have q1 : ((M : Int) % 10).toNat = M % 10 := by omega
  have q2 : ((S : Int) / 10).toNat = S / 10 := by omega
  have q3 : ((S : Int) % 10).toNat = S % 10 := by omega
  have b0 := digitPattern_entry (M / 10) (by omega)
  have b1 := digitPattern_entry (M % 10) (by omega)
  have b2 := digitPattern_entry (S / 10) (by omega)
  have b3 := digitPattern_entry (S % 10) (by omega)
  refine ⟨htime, hrange, ?_, rfl, ?_, ?_, by decide, by decide⟩
  · rw [digitsOf_nonneg _ hrange.1, htime]
    simp only [List.cons.injEq, and_true]
    refine ⟨?_, ?_, ?_, ?_⟩ <;> omega
  · have hbranch : displayBranch { s1 := s1, s3 := true, sample := sample }
          { seconds := (S : Int), minutes := (M : Int) }
        = displayNumber (timeValueOf { seconds := (S : Int), minutes := (M : Int) }) true 1 :=
      rfl
    obtain ⟨x0, x1, x2, x3⟩ :=
      expectedSegments_time (timeValueOf { seconds := (S : Int), minutes := (M : Int) })
    have hmod : digitPattern.getD (M % 10) 0 % 128 = digitPattern.getD (M % 10) 0 - 128 := by
      omega
    rw [hbranch, displayNumber_of_range _ true 1 hrange.1 (by omega), x0, x1, x2, x3, htoNat,
      e0, e1, e2, e3, q0, q1, q2, q3, hmod]
  · simp only [q0, q1, q2, q3]
    unfold bitOf
    refine ⟨?_, ?_, ?_, ?_, ?_⟩ <;> omega

theorem timeMode_display_witness :
    timeValueOf { seconds := 30, minutes := 5 } = 5 * 100 + 30
      ∧ digitsOf (timeValueOf { seconds := 30, minutes := 5 })
          = [(5 : Int) / 10, (5 : Int) % 10, (30 : Int) / 10, (30 : Int) % 10] :=
  ⟨(timeMode_display { seconds := 30, minutes := 5 } true 0
      (by decide) (by decide) (by decide) (by decide)).1,
   (timeMode_display { seconds := 30, minutes := 5 } true 0
      (by decide) (by decide) (by decide) (by decide)).2.2.1⟩

/-- C16: one main-loop iteration, no tick occurring during it, as a function
of the button levels, the analog sample and the clock state: with the reset
button `s1` high (unpressed) seconds and minutes are unchanged in both modes;
with `s1` low (pressed) the clock is set to (0, 0) and the 200 ms debounce
sleep precedes the display, computed from the cleared clock, so with the mode
button `s3` unpressed the value 0 is displayed (digits 0, 0, 0, 0, decimal
point on index 1); the mode is Voltage exactly when `s3` reads low, Time
otherwise. -/
theorem mainIteration_frame (inp : LoopInputs) (c : ClockState) :
    (inp.s1 = true → (mainIteration inp c).1 = c)
      ∧ (inp.s1 = false → (mainIteration inp c).1 = { seconds := 0, minutes := 0 })
      ∧ (inp.s1 = false → inp.s3 = true →
          timeValueOf (mainIteration inp c).1 = 0
            ∧ digitsOf 0 = [0, 0, 0, 0]
            ∧ (mainIteration inp c).2
              = some ([Event.sleep 200]
                  ++ (writeToShiftRegister 0xC0 0x01 ++ [Event.sleep 2]
                  ++ (writeToShiftRegister 0x40 0x02 ++ [Event.sleep 2]
                  ++ (writeToShiftRegister 0xC0 0x04 ++ [Event.sleep 2]
                  ++ (writeToShiftRegister 0xC0 0x08 ++ [Event.sleep 2]))))))
      ∧ (inp.s3 = false →
          (mainIteration inp c).2
            = (displayNumber (voltageValueOf inp.sample) true 0).map
                (fun shown => (if inp.s1 = true then [] else [Event.sleep 200]) ++ shown))
      ∧ (inp.s3 = true →
          (mainIteration inp c).2
            = (displayNumber (timeValueOf (mainIteration inp c).1) true 1).map
                (fun shown => (if inp.s1 = true then [] else [Event.sleep 200]) ++ shown)) := by
  obtain ⟨s1, s3, sample⟩ := inp
  refine ⟨?_, ?_, ?_, ?_, ?_⟩
  · intro h
    simp only at h
    subst h
    rfl
  · intro h
    simp only at h
    subst h
    rfl
  · intro h h3
    simp only at h h3
    subst h
    subst h3
    have hzero : timeValueOf { seconds := 0, minutes := 0 } = 0 := by decide
    refine ⟨hzero, by decide, ?_⟩
    show Option.map _ (displayNumber (timeValueOf { seconds := 0, minutes := 0 }) true 1) = _
    rw [hzero]
    rfl
  · intro h3
    simp only at h3
    subst h3
    cases s1 <;> rfl
  · intro h3
    simp only at h3
    subst h3
    cases s1 <;> rfl

theorem mainIteration_frame_witness :
    (mainIteration { s1 := false, s3 := true, sample := 40000 }
        { seconds := 45, minutes := 12 }).1 = { seconds := 0, minutes := 0 } :=
  (mainIteration_frame { s1 := false, s3 := true, sample := 40000 }
    { seconds := 45, minutes := 12 }).2.1 rfl

/-! ## Single-precision arithmetic: error bound -/

theorem roundHalfEven_le (x : ℚ) : (roundHalfEven x : ℚ) ≤ x + 1 / 2 := by
  have hfloor := Int.floor_le x
  unfold roundHalfEven
  simp only
  split_ifs with h1 h2 h3
  · linarith
  · push_cast
    linarith
  · linarith
  · push_cast
    linarith

theorem roundHalfEven_nonneg (x : ℚ) (hx : 0 ≤ x) : 0 ≤ roundHalfEven x := by
  have hfloor : 0 ≤ ⌊x⌋ := Int.floor_nonneg.2 hx
  unfold roundHalfEven
  simp only
  split_ifs <;> omega

theorem roundFloat_nonneg (x : ℚ) (hx : 0 ≤ x) : 0 ≤ roundFloat x := by
  unfold roundFloat
  have hu : (0 : ℚ) < 2 ^ ulpExponent x := zpow_pos (by norm_num) _
  have hq : 0 ≤ x / 2 ^ ulpExponent x := div_nonneg hx hu.le
  have hr : (0 : ℚ) ≤ (roundHalfEven (x / 2 ^ ulpExponent x) : ℚ) := by
    exact_mod_cast roundHalfEven_nonneg _ hq
  exact mul_nonneg hr hu.le

theorem roundFloat_zero : roundFloat 0 = 0 := by
  unfold roundFloat
  rw [zero_div]
  have h : roundHalfEven 0 = 0 := by
    unfold roundHalfEven
    simp
  rw [h]
  simp

theorem ulp_le (x : ℚ) (hx : 0 < x) :
    (2 : ℚ) ^ ulpExponent x / 2 ≤ x / 2 ^ 24 + 1 / 2 ^ 150 := by
  have hlog : (2 : ℚ) ^ Int.log 2 x ≤ x := by
    have := Int.zpow_log_le_self (b := 2) (r := x) (by norm_num) hx
    simpa using this
  unfold ulpExponent
  rw [abs_of_pos hx]
  rcases le_total (Int.log 2 x) (-126) with hsmall | hbig
  · rw [max_eq_right hsmall]
    have hval : (2 : ℚ) ^ ((-126 : ℤ) - 23) / 2 = 1 / 2 ^ 150 := by norm_num
    rw [hval]
    have : 0 ≤ x / 2 ^ 24 := by positivity
    linarith
  · rw [max_eq_left hbig, zpow_sub₀ (by norm_num : (2 : ℚ) ≠ 0)]
    have h23 : (2 : ℚ) ^ (23 : ℤ) = 2 ^ 23 := by norm_num
    rw [h23]
    have hstep : (2 : ℚ) ^ Int.log 2 x / 2 ^ 23 / 2 ≤ x / 2 ^ 23 / 2 := by
      apply div_le_div_of_nonneg_right _ (by norm_num)
      exact div_le_div_of_nonneg_right hlog (by norm_num)
    have hpos : (0 : ℚ) ≤ 1 / 2 ^ 150 := by positivity
    have heq : x / 2 ^ 23 / 2 = x / 2 ^ 24 := by ring
    linarith

theorem roundFloat_le (x : ℚ) (hx : 0 ≤ x) :
    roundFloat x ≤ x + x / 2 ^ 24 + 1 / 2 ^ 150 := by
  rcases hx.eq_or_lt with h0 | hpos
  · rw [← h0, roundFloat_zero]
    norm_num
  · have hu : (0 : ℚ) < 2 ^ ulpExponent x := zpow_pos (by norm_num) _
    have hround := roundHalfEven_le (x / 2 ^ ulpExponent x)
    have hmul : roundFloat x ≤ (x / 2 ^ ulpExponent x + 1 / 2) * 2 ^ ulpExponent x := by
      unfold roundFloat
      exact mul_le_mul_of_nonneg_right hround hu.le
    have hexp : (x / 2 ^ ulpExponent x + 1 / 2) * 2 ^ ulpExponent x
        = x + 2 ^ ulpExponent x / 2 := by
      field_simp
      ring
    have hulp := ulp_le x hpos
    linarith

theorem roundFloat_le_of_le (x B : ℚ) (hx : 0 ≤ x) (hB : x ≤ B) :
    roundFloat x ≤ B + B / 2 ^ 24 + 1 / 2 ^ 150 := by
  have h := roundFloat_le x hx
  have hdiv : x / 2 ^ 24 ≤ B / 2 ^ 24 := div_le_div_of_nonneg_right hB (by norm_num)
  linarith

theorem voltageValueOf_range (sample : Nat) (h : sample ≤ 65535) :
    0 ≤ voltageValueOf sample ∧ voltageValueOf sample ≤ 3300 := by
  have hs : ((sample : ℚ)) ≤ 65535 := by exact_mod_cast h
  have hx1 : (0 : ℚ) ≤ (sample : ℚ) / 65535 := by positivity
  have hx1le : (sample : ℚ) / 65535 ≤ 1 := by
    rw [div_le_one (by norm_num)]
    exact hs
  have hq0 := roundFloat_nonneg _ hx1
  have hq : roundFloat ((sample : ℚ) / 65535) ≤ 10001 / 10000 :=
    (roundFloat_le_of_le _ 1 hx1 hx1le).trans (by norm_num)
  have hc0 := roundFloat_nonneg (33 / 10) (by norm_num)
  have hc : roundFloat (33 / 10) ≤ 33001 / 10000 :=
    (roundFloat_le_of_le _ (33 / 10) (by norm_num) le_rfl).trans (by norm_num)
  have hx2 : 0 ≤ roundFloat ((sample : ℚ) / 65535) * roundFloat (33 / 10) :=
    mul_nonneg hq0 hc0
  have hx2le : roundFloat ((sample : ℚ) / 65535) * roundFloat (33 / 10)
      ≤ 10001 / 10000 * (33001 / 10000) :=
    mul_le_mul hq hc hc0 (by norm_num)
  have hv0 : 0 ≤ voltageOf sample := roundFloat_nonneg _ hx2
  have hv : voltageOf sample ≤ 33005 / 10000 :=
    (roundFloat_le_of_le _ _ hx2 hx2le).trans (by norm_num)
  have hx3 : 0 ≤ voltageOf sample * 1000 := mul_nonneg hv0 (by norm_num)
  have hx3le : voltageOf sample * 1000 ≤ 33005 / 10 := by linarith
  have hw0 := roundFloat_nonneg _ hx3
  have hw : roundFloat (voltageOf sample * 1000) < 3301 :=
    lt_of_le_of_lt (roundFloat_le_of_le _ _ hx3 hx3le) (by norm_num)
  unfold voltageValueOf truncToInt
  rw [if_pos hw0]
  constructor
  · exact Int.floor_nonneg.2 hw0
  · have hlt : ⌊roundFloat (voltageOf sample * 1000)⌋ < 3301 := Int.floor_lt.2 (by exact_mod_cast hw)
    omega

theorem roundHalfEven_eq (x : ℚ) (n : ℤ) (hlo : (n : ℚ) - 1 / 2 < x) (hhi : x < n + 1 / 2) :
    roundHalfEven x = n := by
  have hfl := Int.floor_le x
  have hfl2 := Int.lt_floor_add_one x
  have hcases : ⌊x⌋ = n ∨ ⌊x⌋ = n - 1 := by
    have h1 : ⌊x⌋ < n + 1 := by
      rw [Int.floor_lt]
      push_cast
      linarith
    have h2 : n - 2 < ⌊x⌋ := by
      have : ((n - 2 : ℤ) : ℚ) < (⌊x⌋ : ℚ) := by
        push_cast
        linarith
      exact_mod_cast this
    omega
  unfold roundHalfEven
  simp only
  rcases hcases with h | h
  · rw [h]
    rw [if_pos (by linarith)]
  · rw [h]
    have hnot : ¬ (x - ((n - 1 : ℤ) : ℚ) < 1 / 2) := by
      push_cast
      linarith
    have hgt : 1 / 2 < x - ((n - 1 : ℤ) : ℚ) := by
      push_cast
      linarith
    rw [if_neg hnot, if_pos hgt]
    omega

theorem ulpExponent_eq (x : ℚ) (L : ℤ) (hL : -126 ≤ L) (hlo : (2 : ℚ) ^ L ≤ x)
    (hhi : x < 2 ^ (L + 1)) : ulpExponent x = L - 23 := by
  have hpos : 0 < x := lt_of_lt_of_le (zpow_pos (by norm_num) _) hlo
  have hlog : Int.log 2 x = L := by
    have h1 : L ≤ Int.log 2 x := by
      rw [← Int.zpow_le_iff_le_log (by norm_num) hpos]
      simpa using hlo
    have h2 : Int.log 2 x < L + 1 := by
      rw [← Int.lt_zpow_iff_log_lt (by norm_num) hpos]
      simpa using hhi
    omega
  unfold ulpExponent
  rw [abs_of_pos hpos, hlog, max_eq_left hL]

theorem roundFloat_eq (x : ℚ) (L n : ℤ) (hL : -126 ≤ L) (hlo : (2 : ℚ) ^ L ≤ x)
    (hhi : x < 2 ^ (L + 1)) (hnlo : (n : ℚ) - 1 / 2 < x / 2 ^ (L - 23))
    (hnhi : x / 2 ^ (L - 23) < n + 1 / 2) : roundFloat x = n * 2 ^ (L - 23) := by
  unfold roundFloat
  rw [ulpExponent_eq x L hL hlo hhi, roundHalfEven_eq _ n hnlo hnhi]

theorem roundFloat_one : roundFloat 1 = 1 := by
  rw [roundFloat_eq 1 0 8388608 (by norm_num) (by norm_num) (by norm_num) (by norm_num)
    (by norm_num)]
  norm_num

theorem roundFloat_literal : roundFloat (33 / 10) = 13841203 / 4194304 := by
  rw [roundFloat_eq (33 / 10) 1 13841203 (by norm_num) (by norm_num) (by norm_num)
    (by norm_num) (by norm_num)]
  norm_num

theorem voltageValueOf_full_scale : voltageValueOf 65535 = 3300 := by
  have hv : voltageOf 65535 = 13841203 / 4194304 := by
    unfold voltageOf
    have hdiv : ((65535 : ℕ) : ℚ) / 65535 = 1 := by norm_num
    rw [hdiv, roundFloat_one, roundFloat_literal, one_mul]
    rw [roundFloat_eq (13841203 / 4194304) 1 13841203 (by norm_num) (by norm_num)
      (by norm_num) (by norm_num) (by norm_num)]
    norm_num
  unfold voltageValueOf
  rw [hv, roundFloat_eq (13841203 / 4194304 * 1000) 11 13516800 (by norm_num) (by norm_num)
    (by norm_num) (by norm_num) (by norm_num)]
  have h3300 : ((13516800 : ℤ) : ℚ) * 2 ^ ((11 : ℤ) - 23) = 3300 := by norm_num
  rw [h3300]
  unfold truncToInt
  rw [if_pos (by norm_num)]
  exact Int.floor_intCast 3300

theorem voltageValueOf_zero : voltageValueOf 0 = 0 := by
  unfold voltageValueOf voltageOf
  simp only [Nat.cast_zero, zero_div, roundFloat_zero, zero_mul]
  unfold truncToInt
  simp

theorem expectedSegments_voltage (v : Int) :
    expectedSegments v true 0 0 = digitPattern.getD (decimalDigit v.toNat 0) 0 % 128
      ∧ expectedSegments v true 0 1 = digitPattern.getD (decimalDigit v.toNat 1) 0
      ∧ expectedSegments v true 0 2 = digitPattern.getD (decimalDigit v.toNat 2) 0
      ∧ expectedSegments v true 0 3 = digitPattern.getD (decimalDigit v.toNat 3) 0 := by
  unfold expectedSegments
  refine ⟨?_, ?_, ?_, ?_⟩
  · rw [if_pos (by decide)]
  · rw [if_neg (by decide)]
  · rw [if_neg (by decide)]
  · rw [if_neg (by decide)]

/-- C15: for every 16-bit unsigned analog sample `r` in 0..65535, the
Voltage-mode value `static_cast<int>((r / 65535.0f * 3.3f) * 1000)`, computed
in single precision, lies in 0..3300 (0 at `r = 0`, 3300 at `r = 65535`), so
it fits in 4 decimal digits and is displayed by `displayNumber(value, true, 0)`
with the decimal point lit after the first digit only. -/
theorem voltageMode_display (sample : Nat) (s1 : Bool) (c : ClockState)
    (h : sample ≤ 65535) :
    (0 ≤ voltageValueOf sample ∧ voltageValueOf sample ≤ 3300)
      ∧ voltageValueOf sample ≤ 9999
      ∧ (∀ d ∈ digitsOf (voltageValueOf sample), 0 ≤ d ∧ d ≤ 9)
      ∧ displayBranch { s1 := s1, s3 := false, sample := sample } c
          = displayNumber (voltageValueOf sample) true 0
      ∧ displayNumber (voltageValueOf sample) true 0
          = some (writeToShiftRegister
                    (digitPattern.getD (decimalDigit (voltageValueOf sample).toNat 0) 0 - 128)
                    0x01
                  ++ [Event.sleep 2]
                  ++ (writeToShiftRegister
                    (digitPattern.getD (decimalDigit (voltageValueOf sample).toNat 1) 0) 0x02
                  ++ [Event.sleep 2]
                  ++ (writeToShiftRegister
                    (digitPattern.getD (decimalDigit (voltageValueOf sample).toNat 2) 0) 0x04
                  ++ [Event.sleep 2]
                  ++ (writeToShiftRegister
                    (digitPattern.getD (decimalDigit (voltageValueOf sample).toNat 3) 0) 0x08
                  ++ [Event.sleep 2]))))
      ∧ (∀ i, i < 4 →
          bitOf (digitPattern.getD (decimalDigit (voltageValueOf sample).toNat i) 0) 7 = 1)
      ∧ bitOf (digitPattern.getD (decimalDigit (voltageValueOf sample).toNat 0) 0 - 128) 7 = 0
      ∧ voltageValueOf 0 = 0
      ∧ voltageValueOf 65535 = 3300 := by
  obtain ⟨hlo, hhi⟩ := voltageValueOf_range sample h
  have hbit : ∀ i, 128 ≤ digitPattern.getD (decimalDigit (voltageValueOf sample).toNat i) 0
      ∧ digitPattern.getD (decimalDigit (voltageValueOf sample).toNat i) 0 < 256 := fun i =>
    (digitPattern_entry _ (decimalDigit_lt (voltageValueOf sample).toNat i)).2
  refine ⟨⟨hlo, hhi⟩, by omega, ?_, rfl, ?_, ?_, ?_, voltageValueOf_zero,
    voltageValueOf_full_scale⟩
  · intro d hd
    rw [digitsOf_nonneg _ hlo] at hd
    simp only [List.mem_cons, List.mem_singleton, List.not_mem_nil, or_false] at hd
    rcases hd with rfl | rfl | rfl | rfl <;> omega
  · obtain ⟨x0, x1, x2, x3⟩ := expectedSegments_voltage (voltageValueOf sample)
    have hmod : digitPattern.getD (decimalDigit (voltageValueOf sample).toNat 0) 0 % 128
        = digitPattern.getD (decimalDigit (voltageValueOf sample).toNat 0) 0 - 128 := by
      have := hbit 0
      omega
    rw [displayNumber_of_range _ true 0 hlo (by omega), x0, x1, x2, x3, hmod]
  · intro i _
    have := hbit i
    unfold bitOf
    omega
  · have := hbit 0
    unfold bitOf
    omega

theorem voltageMode_display_witness :
    0 ≤ voltageValueOf 54613 ∧ voltageValueOf 54613 ≤ 3300 :=
  (voltageMode_display 54613 true initialClock (by decide)).1

end SevenSeg
